import Mathlib

/-
Verification of the DatasetOp execution-tree node of
src/mindspore/ccsrc/dataset/engine/datasetops/dataset_op.h.

The sources contain only the header: inline member functions (inlined(),
ConnectorSize(), ConnectorCapacity(), ChildOpConnectorSize(),
HasColumnNameMap(), ResetSubtree(), id(), set_id(), ...) are embedded
directly from their code.  The bodies that live in dataset_op.cc
(AddChild, RemoveChild, Remove, InsertAsParent, AddParent, RemoveParent,
GetNextInput, CreateConnector, the constructor) are not among the sources;
those are modelled from the specification, and each such definition says so
in its doc comment.
-/

namespace MindDataset

/-- Error kinds carried by a failing Status (spec section 7): AlreadyChild
for adding an existing child, NotFound for removing a non-child,
UnsupportedOperation for removing a multi-child node, InvalidState for an
operation on a node whose state does not admit it. -/
inductive ErrKind where
  | AlreadyChild : ErrKind
  | NotFound : ErrKind
  | UnsupportedOperation : ErrKind
  | InvalidState : ErrKind
deriving DecidableEq, Repr

/-- Status returned by DatasetOp operations: success or a typed failure,
mirroring dataset/util/status.h as used throughout dataset_op.h. -/
inductive Status where
  | OK : Status
  | Error : ErrKind → Status
deriving DecidableEq, Repr

/-- Link state of one DatasetOp node: the ordered children sequence
(child_), the parent back-references (parent_), the generated operator id
(operator_id_) and the back pointer to the owning tree (tree_), mirroring
the members of class DatasetOp declared in dataset_op.h lines 334-344.
Nodes are addressed by natural-number handles standing for the C++
shared_ptr identities. -/
structure DOp where
  child_ : List Nat
  parent_ : List Nat
  operator_id_ : Int
  tree_ : Option Nat
deriving DecidableEq, Repr

/-- The node arena: every handle is mapped to a node state. -/
abbrev Forest := Nat → DOp

/-- Mutual parent/child consistency (spec section 3 invariant): node c has
p in its parent set iff p has c in its children sequence. -/
def Consistent (σ : Forest) : Prop :=
  ∀ c p : Nat, p ∈ (σ c).parent_ ↔ c ∈ (σ p).child_

/-- Modelled from the spec: the body of DatasetOp::AddChild lives in
dataset_op.cc, which is not among the sources (dataset_op.h line 68 has
only the declaration).  Per spec section 4.1 it appends the child to the
children sequence and registers this node in the child's parent set (via
the protected AddParent, dataset_op.h line 314), failing without mutation
when the child is already present. -/
def addChild (σ : Forest) (a c : Nat) : Status × Forest :=
  if c ∈ (σ a).child_ then (Status.Error ErrKind.AlreadyChild, σ)
  else
    (Status.OK, fun m =>
      let o := σ m
      let o1 := if m = a then { o with child_ := o.child_ ++ [c] } else o
      if m = c then { o1 with parent_ := o1.parent_ ++ [a] } else o1)

/-- Modelled from the spec: the body of DatasetOp::RemoveChild lives in
dataset_op.cc, not among the sources (declaration at dataset_op.h line
72).  Per spec section 4.1 it removes the child from the sequence and
removes this node from the child's parent set (via the protected
RemoveParent, dataset_op.h line 319), failing with NotFound when the given
node is not a direct child. -/
def removeChild (σ : Forest) (a c : Nat) : Status × Forest :=
  if c ∈ (σ a).child_ then
    (Status.OK, fun m =>
      let o := σ m
      let o1 := if m = a then { o with child_ := o.child_.filter (fun x => x ≠ c) } else o
      if m = c then { o1 with parent_ := o1.parent_.filter (fun x => x ≠ a) } else o1)
  else (Status.Error ErrKind.NotFound, σ)

/-- Modelled from the spec: the body of DatasetOp::Remove lives in
dataset_op.cc, not among the sources (declaration at dataset_op.h line
76).  Per spec section 4.1 it detaches the node, reconnecting every former
parent directly to the former child, rejects multi-child nodes with
UnsupportedOperation, and leaves the removed node with no parent/child
references.  A node that is its own child (a cycle, which spec section 3
excludes) is also rejected, since the reconnection the spec describes is
meaningless there. -/
def removeNode (σ : Forest) (c : Nat) : Status × Forest :=
  match (σ c).child_ with
  | [] =>
    (Status.OK, fun m =>
      if m = c then { σ c with child_ := [], parent_ := [] }
      else if m ∈ (σ c).parent_ then
        { σ m with child_ := (σ m).child_.filter (fun x => x ≠ c) }
      else σ m)
  | [g] =>
    if g = c then (Status.Error ErrKind.UnsupportedOperation, σ)
    else
      (Status.OK, fun m =>
        if m = c then { σ c with child_ := [], parent_ := [] }
        else
          let o := σ m
          let o1 := if m ∈ (σ c).parent_ then
            { o with child_ := o.child_.map (fun x => if x = c then g else x) } else o
          if m = g then
            { o1 with parent_ := o1.parent_.filter (fun x => x ≠ c) ++ (σ c).parent_ }
          else o1)
  | _ :: _ :: _ => (Status.Error ErrKind.UnsupportedOperation, σ)

/-- Modelled from the spec: the body of DatasetOp::InsertAsParent lives in
dataset_op.cc, not among the sources (declaration at dataset_op.h line
85).  Per the header comment and spec section 4.1, the inserted node
becomes the sole parent of this node, every former parent is rewired to
point at the inserted node instead, and the inserted node gains this node
as its only child.  Since the inserted node ends with exactly the
described links, a candidate that already has links of its own (or is this
node itself) is rejected, as splicing it would break the spec section 3
invariants. -/
def insertAsParent (σ : Forest) (c n : Nat) : Status × Forest :=
  if (σ n).parent_ = [] ∧ (σ n).child_ = [] ∧ n ≠ c then
    (Status.OK, fun m =>
      let o := σ m
      let o1 := if m ∈ (σ c).parent_ then
        { o with child_ := o.child_.map (fun x => if x = c then n else x) } else o
      if m = c then { o1 with parent_ := [n] }
      else if m = n then { o1 with parent_ := (σ c).parent_, child_ := [c] }
      else o1)
  else (Status.Error ErrKind.InvalidState, σ)

/-- One step of the tree mutation API of spec section 4.1. -/
inductive Mutation where
  | addChild (a c : Nat) : Mutation
  | removeChild (a c : Nat) : Mutation
  | remove (c : Nat) : Mutation
  | insertAsParent (c n : Nat) : Mutation
deriving DecidableEq, Repr

/-- Dispatch of one mutation step to the corresponding operation. -/
def applyMutation (σ : Forest) : Mutation → Status × Forest
  | Mutation.addChild a c => addChild σ a c
  | Mutation.removeChild a c => removeChild σ a c
  | Mutation.remove c => removeNode σ c
  | Mutation.insertAsParent c n => insertAsParent σ c n

/-- Run a sequence of mutations; a failing step keeps the state it found
(the operations fail atomically). -/
def runMutations (σ : Forest) (ms : List Mutation) : Forest :=
  ms.foldl (fun τ m => (applyMutation τ m).2) σ

/-- The arena in which every node is standalone: no links, the
kInvalidOperatorId sentinel, no tree back pointer. -/
def emptyForest : Forest := fun _ =>
  { child_ := [], parent_ := [], operator_id_ := -1, tree_ := none }

/-- Membership in a list after filtering out one value. -/
theorem mem_filter_ne (l : List Nat) (c x : Nat) :
    x ∈ l.filter (fun z => z ≠ c) ↔ x ∈ l ∧ x ≠ c := by
  simp [List.mem_filter]

/-- Membership in a list after replacing every occurrence of c by g. -/
theorem mem_map_replace (l : List Nat) (c g x : Nat) :
    x ∈ l.map (fun z => if z = c then g else z) ↔ (x = g ∧ c ∈ l) ∨ (x ∈ l ∧ x ≠ c) := by
  simp only [List.mem_map]
  constructor
  · rintro ⟨z, hz, hzx⟩
    by_cases hzc : z = c
    · subst hzc
      rw [if_pos rfl] at hzx
      exact Or.inl ⟨hzx.symm, hz⟩
    · rw [if_neg hzc] at hzx
      subst hzx
      exact Or.inr ⟨hz, hzc⟩
  · rintro (⟨rfl, hc⟩ | ⟨hx, hxc⟩)
    · exact ⟨c, hc, by simp⟩
    · exact ⟨x, hx, by simp [hxc]⟩

/-- Children after a successful addChild: only the target node's sequence
grows, by the new child at the back. -/
theorem addChild_child_eq (σ : Forest) (a c m : Nat) (h : c ∉ (σ a).child_) :
    ((addChild σ a c).2 m).child_ =
      if m = a then (σ m).child_ ++ [c] else (σ m).child_ := by
  simp only [addChild, if_neg h]
  by_cases hc : m = c <;> by_cases ha : m = a <;> simp [hc, ha] <;> split <;> rfl

/-- Parents after a successful addChild: only the child's parent set grows,
by the adding node. -/
theorem addChild_parent_eq (σ : Forest) (a c m : Nat) (h : c ∉ (σ a).child_) :
    ((addChild σ a c).2 m).parent_ =
      if m = c then (σ m).parent_ ++ [a] else (σ m).parent_ := by
  simp only [addChild, if_neg h]
  by_cases hc : m = c <;> by_cases ha : m = a <;> simp [hc, ha] <;> split <;> rfl

/-- AddChild preserves mutual parent/child consistency. -/
theorem addChild_consistent (σ : Forest) (a c : Nat) (h : Consistent σ) :
    Consistent (addChild σ a c).2 := by
  by_cases hmem : c ∈ (σ a).child_
  · simp only [addChild, if_pos hmem]
    exact h
  · intro x y
    rw [addChild_parent_eq σ a c x hmem, addChild_child_eq σ a c y hmem]
    have hxy := h x y
    by_cases hx : x = c
    · subst hx
      by_cases hy : y = a
      · subst hy
        simp only [if_pos rfl, ite_true, List.mem_append, List.mem_singleton]
        tauto
      · simp only [if_pos rfl, ite_true, if_neg hy, List.mem_append, List.mem_singleton]
        tauto
    · by_cases hy : y = a
      · subst hy
        simp only [if_neg hx, if_pos rfl, ite_true, List.mem_append, List.mem_singleton]
        tauto
      · simp only [if_neg hx, if_neg hy]
        exact hxy

/-- Children after a successful removeChild: only the removing node's
sequence shrinks, losing every occurrence of the removed child. -/
theorem removeChild_child_eq (σ : Forest) (a c m : Nat) (h : c ∈ (σ a).child_) :
    ((removeChild σ a c).2 m).child_ =
      if m = a then (σ m).child_.filter (fun x => x ≠ c) else (σ m).child_ := by
  simp only [removeChild, if_pos h]
  by_cases hc : m = c <;> by_cases ha : m = a <;> simp [hc, ha] <;> split <;> rfl

/-- Parents after a successful removeChild: only the removed child's parent
set shrinks, losing the removing node. -/
theorem removeChild_parent_eq (σ : Forest) (a c m : Nat) (h : c ∈ (σ a).child_) :
    ((removeChild σ a c).2 m).parent_ =
      if m = c then (σ m).parent_.filter (fun x => x ≠ a) else (σ m).parent_ := by
  simp only [removeChild, if_pos h]
  by_cases hc : m = c <;> by_cases ha : m = a <;> simp [hc, ha] <;> split <;> rfl

/-- RemoveChild preserves mutual parent/child consistency. -/
theorem removeChild_consistent (σ : Forest) (a c : Nat) (h : Consistent σ) :
    Consistent (removeChild σ a c).2 := by
  by_cases hmem : c ∈ (σ a).child_
  · intro x y
    rw [removeChild_parent_eq σ a c x hmem, removeChild_child_eq σ a c y hmem]
    have hxy := h x y
    by_cases hx : x = c
    · subst hx
      by_cases hy : y = a
      · subst hy
        simp only [if_pos rfl, ite_true, mem_filter_ne]
        tauto
      · simp only [if_pos rfl, ite_true, if_neg hy, mem_filter_ne]
        tauto
    · by_cases hy : y = a
      · subst hy
        simp only [if_neg hx, if_pos rfl, ite_true, mem_filter_ne]
        tauto
      · simp only [if_neg hx, if_neg hy]
        exact hxy
  · simp only [removeChild, if_neg hmem]
    exact h

/-- Children after removing a childless node: each former parent loses it,
the node itself is cleared. -/
theorem removeNode_nil_child_eq (σ : Forest) (c m : Nat) (h : (σ c).child_ = []) :
    ((removeNode σ c).2 m).child_ =
      if m = c then []
      else if m ∈ (σ c).parent_ then (σ m).child_.filter (fun x => x ≠ c)
      else (σ m).child_ := by
  simp only [removeNode, h]
  by_cases hc : m = c
  · simp [hc]
  · by_cases hp : m ∈ (σ c).parent_ <;> simp [hc, hp]

/-- Parents after removing a childless node: only the removed node's parent
set changes, to empty. -/
theorem removeNode_nil_parent_eq (σ : Forest) (c m : Nat) (h : (σ c).child_ = []) :
    ((removeNode σ c).2 m).parent_ = if m = c then [] else (σ m).parent_ := by
  simp only [removeNode, h]
  by_cases hc : m = c
  · simp [hc]
  · by_cases hp : m ∈ (σ c).parent_ <;> simp [hc, hp]

/-- Children after removing a single-child node c with child g: each former
parent of c holds g in place of c, c itself is cleared. -/
theorem removeNode_single_child_eq (σ : Forest) (c g m : Nat) (h : (σ c).child_ = [g])
    (hgc : g ≠ c) :
    ((removeNode σ c).2 m).child_ =
      if m = c then []
      else if m ∈ (σ c).parent_ then (σ m).child_.map (fun x => if x = c then g else x)
      else (σ m).child_ := by
  simp only [removeNode, h, if_neg hgc, apply_ite DOp.child_, ite_self]

/-- Parents after removing a single-child node c with child g: g drops c
and inherits every former parent of c, c itself is cleared. -/
theorem removeNode_single_parent_eq (σ : Forest) (c g m : Nat) (h : (σ c).child_ = [g])
    (hgc : g ≠ c) :
    ((removeNode σ c).2 m).parent_ =
      if m = c then []
      else if m = g then (σ m).parent_.filter (fun x => x ≠ c) ++ (σ c).parent_
      else (σ m).parent_ := by
  simp only [removeNode, h, if_neg hgc, apply_ite DOp.parent_, ite_self]

/-- Remove preserves mutual parent/child consistency. -/
theorem removeNode_consistent (σ : Forest) (c : Nat) (h : Consistent σ) :
    Consistent (removeNode σ c).2 := by
  rcases hch : (σ c).child_ with _ | ⟨g, _ | ⟨g2, gs⟩⟩
  · intro x y
    rw [removeNode_nil_parent_eq σ c x hch, removeNode_nil_child_eq σ c y hch]
    have hnp : ∀ z : Nat, c ∉ (σ z).parent_ := by
      intro z hz
      have hz2 := (h z c).mp hz
      rw [hch] at hz2
      exact List.not_mem_nil z hz2
    by_cases hx : x = c
    · rw [if_pos hx, hx]
      constructor
      · intro hy
        exact absurd hy (List.not_mem_nil y)
      · intro hy
        exfalso
        by_cases hyc : y = c
        · rw [if_pos hyc] at hy
          exact List.not_mem_nil c hy
        · rw [if_neg hyc] at hy
          by_cases hp : y ∈ (σ c).parent_
          · rw [if_pos hp, mem_filter_ne] at hy
            exact hy.2 rfl
          · rw [if_neg hp] at hy
            exact hp ((h c y).mpr hy)
    · rw [if_neg hx]
      by_cases hyc : y = c
      · rw [if_pos hyc, hyc]
        constructor
        · intro hy
          exact absurd hy (hnp x)
        · intro hy
          exact absurd hy (List.not_mem_nil x)
      · rw [if_neg hyc]
        by_cases hp : y ∈ (σ c).parent_
        · rw [if_pos hp, mem_filter_ne]
          constructor
          · intro hy
            exact ⟨(h x y).mp hy, hx⟩
          · intro hy
            exact (h x y).mpr hy.1
        · rw [if_neg hp]
          exact h x y
  · by_cases hgc : g = c
    · simp only [removeNode, hch, if_pos hgc]
      exact h
    · intro x y
      rw [removeNode_single_parent_eq σ c g x hch hgc,
        removeNode_single_child_eq σ c g y hch hgc]
      have hA : ∀ z : Nat, c ∈ (σ z).parent_ ↔ z = g := by
        intro z
        rw [h z c, hch, List.mem_singleton]
      have hB : ∀ z : Nat, z ∈ (σ c).parent_ ↔ c ∈ (σ z).child_ := fun z => h c z
      have hcps : c ∉ (σ c).parent_ := by
        intro hcc
        exact hgc ((hA c).mp hcc).symm
      by_cases hx : x = c
      · rw [if_pos hx, hx]
        constructor
        · intro hy
          exact absurd hy (List.not_mem_nil y)
        · intro hy
          exfalso
          by_cases hyc : y = c
          · rw [if_pos hyc] at hy
            exact List.not_mem_nil c hy
          · rw [if_neg hyc] at hy
            by_cases hp : y ∈ (σ c).parent_
            · rw [if_pos hp, mem_map_replace] at hy
              rcases hy with ⟨hcg, _⟩ | ⟨_, hne⟩
              · exact hgc hcg.symm
              · exact hne rfl
            · rw [if_neg hp] at hy
              exact hp ((hB y).mpr hy)
      · rw [if_neg hx]
        by_cases hxg : x = g
        · rw [if_pos hxg, hxg]
          by_cases hyc : y = c
          · rw [if_pos hyc, hyc, List.mem_append, mem_filter_ne]
            constructor
            · rintro (⟨_, hne⟩ | hcp)
              · exact absurd rfl hne
              · exact absurd hcp hcps
            · intro hy
              exact absurd hy (List.not_mem_nil g)
          · rw [if_neg hyc, List.mem_append, mem_filter_ne]
            by_cases hp : y ∈ (σ c).parent_
            · rw [if_pos hp, mem_map_replace]
              constructor
              · intro _
                exact Or.inl ⟨rfl, (hB y).mp hp⟩
              · intro _
                exact Or.inr hp
            · rw [if_neg hp]
              constructor
              · rintro (⟨hyg, _⟩ | hyp)
                · exact (h g y).mp hyg
                · exact absurd hyp hp
              · intro hy
                exact Or.inl ⟨(h g y).mpr hy, hyc⟩
        · rw [if_neg hxg]
          by_cases hyc : y = c
          · rw [if_pos hyc, hyc]
            constructor
            · intro hy
              exact absurd ((hA x).mp hy) hxg
            · intro hy
              exact absurd hy (List.not_mem_nil x)
          · rw [if_neg hyc]
            by_cases hp : y ∈ (σ c).parent_
            · rw [if_pos hp, mem_map_replace]
              constructor
              · intro hy
                exact Or.inr ⟨(h x y).mp hy, hx⟩
              · rintro (⟨hxg2, _⟩ | ⟨hxy2, _⟩)
                · exact absurd hxg2 hxg
                · exact (h x y).mpr hxy2
            · rw [if_neg hp]
              exact h x y
  · simp only [removeNode, hch]
    exact h

/-- Children after a successful insertAsParent: the inserted node's only
child is this node, each former parent holds the inserted node in place of
this node. -/
theorem insertAsParent_child_eq (σ : Forest) (c n m : Nat)
    (hpn : (σ n).parent_ = []) (hcn : (σ n).child_ = []) (hnc : n ≠ c) :
    ((insertAsParent σ c n).2 m).child_ =
      if m = n then [c]
      else if m ∈ (σ c).parent_ then (σ m).child_.map (fun x => if x = c then n else x)
      else (σ m).child_ := by
  simp only [insertAsParent, if_pos (And.intro hpn (And.intro hcn hnc)),
    apply_ite DOp.child_, ite_self]
  by_cases hc : m = c
  · have hmn : ¬m = n := by
      rw [hc]
      exact fun he => hnc he.symm
    rw [if_pos hc, if_neg hmn]
  · rw [if_neg hc]

/-- Parents after a successful insertAsParent: this node's sole parent is
the inserted node, which takes over this node's former parent set. -/
theorem insertAsParent_parent_eq (σ : Forest) (c n m : Nat)
    (hpn : (σ n).parent_ = []) (hcn : (σ n).child_ = []) (hnc : n ≠ c) :
    ((insertAsParent σ c n).2 m).parent_ =
      if m = c then [n]
      else if m = n then (σ c).parent_
      else (σ m).parent_ := by
  simp only [insertAsParent, if_pos (And.intro hpn (And.intro hcn hnc)),
    apply_ite DOp.parent_, ite_self]

/-- InsertAsParent preserves mutual parent/child consistency. -/
theorem insertAsParent_consistent (σ : Forest) (c n : Nat) (h : Consistent σ) :
    Consistent (insertAsParent σ c n).2 := by
  by_cases hg : (σ n).parent_ = [] ∧ (σ n).child_ = [] ∧ n ≠ c
  · obtain ⟨hpn, hcn, hnc⟩ := hg
    intro x y
    rw [insertAsParent_parent_eq σ c n x hpn hcn hnc,
      insertAsParent_child_eq σ c n y hpn hcn hnc]
    have hnps : n ∉ (σ c).parent_ := by
      intro hn
      have hn2 := (h c n).mp hn
      rw [hcn] at hn2
      exact List.not_mem_nil c hn2
    have hnC : ∀ z : Nat, n ∉ (σ z).child_ := by
      intro z hz
      have hz2 := (h n z).mpr hz
      rw [hpn] at hz2
      exact List.not_mem_nil z hz2
    have hnP : ∀ z : Nat, n ∉ (σ z).parent_ := by
      intro z hz
      have hz2 := (h z n).mp hz
      rw [hcn] at hz2
      exact List.not_mem_nil z hz2
    by_cases hx : x = c
    · rw [if_pos hx, hx, List.mem_singleton]
      by_cases hyn : y = n
      · rw [if_pos hyn, List.mem_singleton]
        constructor
        · intro _
          rfl
        · intro _
          exact hyn
      · rw [if_neg hyn]
        by_cases hp : y ∈ (σ c).parent_
        · rw [if_pos hp, mem_map_replace]
          constructor
          · intro hy
            exact absurd hy hyn
          · rintro (⟨hcn2, _⟩ | ⟨_, hne⟩)
            · exact absurd hcn2.symm hnc
            · exact absurd rfl hne
        · rw [if_neg hp]
          constructor
          · intro hy
            exact absurd hy hyn
          · intro hy
            exact absurd ((h c y).mpr hy) hp
    · rw [if_neg hx]
      by_cases hxn : x = n
      · rw [if_pos hxn, hxn]
        by_cases hyn : y = n
        · rw [if_pos hyn, hyn, List.mem_singleton]
          constructor
          · intro hy
            exact absurd hy hnps
          · intro hy
            exact absurd hy hnc
        · rw [if_neg hyn]
          by_cases hp : y ∈ (σ c).parent_
          · rw [if_pos hp, mem_map_replace]
            constructor
            · intro _
              exact Or.inl ⟨rfl, (h c y).mp hp⟩
            · intro _
              exact hp
          · rw [if_neg hp]
            constructor
            · intro hy
              exact absurd hy hp
            · intro hy
              exact absurd hy (hnC y)
      · rw [if_neg hxn]
        by_cases hyn : y = n
        · rw [if_pos hyn, hyn, List.mem_singleton]
          constructor
          · intro hy
            exact absurd hy (hnP x)
          · intro hy
            exact absurd hy hx
        · rw [if_neg hyn]
          by_cases hp : y ∈ (σ c).parent_
          · rw [if_pos hp, mem_map_replace]
            constructor
            · intro hy
              exact Or.inr ⟨(h x y).mp hy, hx⟩
            · rintro (⟨hxn2, _⟩ | ⟨hxy2, _⟩)
              · exact absurd hxn2 hxn
              · exact (h x y).mpr hxy2
          · rw [if_neg hp]
            exact h x y
  · simp only [insertAsParent, if_neg hg]
    exact h

/-- Every mutation dispatch preserves mutual consistency. -/
theorem applyMutation_consistent (σ : Forest) (m : Mutation) (h : Consistent σ) :
    Consistent (applyMutation σ m).2 := by
  cases m with
  | addChild a c => exact addChild_consistent σ a c h
  | removeChild a c => exact removeChild_consistent σ a c h
  | remove c => exact removeNode_consistent σ c h
  | insertAsParent c n => exact insertAsParent_consistent σ c n h

/-- C1: for every sequence of the mutation operations AddChild,
RemoveChild, InsertAsParent and Remove, started from a mutually consistent
arena, the parent/child relation stays mutually consistent after every
operation (a failing operation keeps the state, so consistency after every
prefix of the sequence is this statement applied to that prefix). -/
theorem c1_mutation_sequences_keep_consistency (σ : Forest) (h : Consistent σ)
    (ms : List Mutation) : Consistent (runMutations σ ms) := by
  induction ms generalizing σ with
  | nil => exact h
  | cons m ms ih =>
      have hstep : runMutations σ (m :: ms) = runMutations (applyMutation σ m).2 ms := rfl
      rw [hstep]
      exact ih (applyMutation σ m).2 (applyMutation_consistent σ m h)

/-- The standalone arena is consistent. -/
theorem emptyForest_consistent : Consistent emptyForest := by
  intro c p
  simp [emptyForest]

/-- C1 witness: a concrete mutation sequence run from the standalone arena,
with both hypotheses discharged. -/
theorem c1_witness :
    Consistent (runMutations emptyForest
      [Mutation.addChild 0 1, Mutation.addChild 1 2, Mutation.remove 1,
        Mutation.insertAsParent 2 3, Mutation.removeChild 0 2]) :=
  c1_mutation_sequences_keep_consistency emptyForest emptyForest_consistent
    [Mutation.addChild 0 1, Mutation.addChild 1 2, Mutation.remove 1,
      Mutation.insertAsParent 2 3, Mutation.removeChild 0 2]

/-- C4: a mutation operation that returns a failure leaves the arena
exactly as it found it; the modelled operations validate before mutating,
as the spec's atomic-failure requirement demands. -/
theorem c4_failed_mutation_changes_nothing (σ : Forest) (m : Mutation)
    (h : (applyMutation σ m).1 ≠ Status.OK) : (applyMutation σ m).2 = σ := by
  cases m with
  | addChild a c =>
      by_cases hm : c ∈ (σ a).child_
      · simp only [applyMutation, addChild, if_pos hm]
      · simp only [applyMutation, addChild, if_neg hm] at h
        exact absurd rfl h
  | removeChild a c =>
      by_cases hm : c ∈ (σ a).child_
      · simp only [applyMutation, removeChild, if_pos hm] at h
        exact absurd rfl h
      · simp only [applyMutation, removeChild, if_neg hm]
  | remove c =>
      rcases hch : (σ c).child_ with _ | ⟨g, _ | ⟨g2, gs⟩⟩
      · simp only [applyMutation, removeNode, hch] at h
        exact absurd rfl h
      · by_cases hgc : g = c
        · simp only [applyMutation, removeNode, hch, if_pos hgc]
        · simp only [applyMutation, removeNode, hch, if_neg hgc] at h
          exact absurd rfl h
      · simp only [applyMutation, removeNode, hch]
  | insertAsParent c n =>
      by_cases hg : (σ n).parent_ = [] ∧ (σ n).child_ = [] ∧ n ≠ c
      · simp only [applyMutation, insertAsParent, if_pos hg] at h
        exact absurd rfl h
      · simp only [applyMutation, insertAsParent, if_neg hg]

/-- C4 witness: removing a non-child fails with NotFound and leaves the
arena untouched. -/
theorem c4_witness :
    (applyMutation emptyForest (Mutation.removeChild 0 1)).1 ≠ Status.OK ∧
      (applyMutation emptyForest (Mutation.removeChild 0 1)).2 = emptyForest :=
  ⟨by decide, c4_failed_mutation_changes_nothing emptyForest
    (Mutation.removeChild 0 1) (by decide)⟩

/-- C2: removing a node with exactly one parent p and exactly one child g
succeeds; afterwards p's children hold g in place of the removed node, g's
parent set contains p, and the removed node holds no parents and no
children.  A node with more than one child is rejected with
UnsupportedOperation and the arena is returned unchanged. -/
theorem c2_remove_correctness :
    (∀ (σ : Forest) (c p g : Nat), Consistent σ →
      (σ c).parent_ = [p] → (σ c).child_ = [g] → g ≠ c →
      (removeNode σ c).1 = Status.OK ∧
      ((removeNode σ c).2 p).child_ =
        (σ p).child_.map (fun x => if x = c then g else x) ∧
      g ∈ ((removeNode σ c).2 p).child_ ∧
      c ∉ ((removeNode σ c).2 p).child_ ∧
      p ∈ ((removeNode σ c).2 g).parent_ ∧
      ((removeNode σ c).2 c).parent_ = [] ∧
      ((removeNode σ c).2 c).child_ = []) ∧
    (∀ (σ : Forest) (c : Nat), 2 ≤ (σ c).child_.length →
      removeNode σ c = (Status.Error ErrKind.UnsupportedOperation, σ)) := by
  constructor
  · intro σ c p g h hpar hch hgc
    have hpc : p ≠ c := by
      intro hpc
      have hcc : c ∈ (σ c).parent_ := by
        rw [hpar, List.mem_singleton]
        exact hpc.symm
      have hcg := (h c c).mp hcc
      rw [hch, List.mem_singleton] at hcg
      exact hgc hcg.symm
    have hpps : p ∈ (σ c).parent_ := by
      rw [hpar]
      exact List.mem_singleton.mpr rfl
    have hcp : c ∈ (σ p).child_ := (h c p).mp hpps
    refine ⟨?_, ?_, ?_, ?_, ?_, ?_, ?_⟩
    · simp only [removeNode, hch, if_neg hgc]
    · rw [removeNode_single_child_eq σ c g p hch hgc, if_neg hpc, if_pos hpps]
    · rw [removeNode_single_child_eq σ c g p hch hgc, if_neg hpc, if_pos hpps,
        mem_map_replace]
      exact Or.inl ⟨rfl, hcp⟩
    · rw [removeNode_single_child_eq σ c g p hch hgc, if_neg hpc, if_pos hpps,
        mem_map_replace]
      rintro (⟨hcg, _⟩ | ⟨_, hne⟩)
      · exact hgc hcg.symm
      · exact hne rfl
    · rw [removeNode_single_parent_eq σ c g g hch hgc, if_neg hgc, if_pos rfl,
        List.mem_append]
      right
      rw [hpar]
      exact List.mem_singleton.mpr rfl
    · rw [removeNode_single_parent_eq σ c g c hch hgc, if_pos rfl]
    · rw [removeNode_single_child_eq σ c g c hch hgc, if_pos rfl]
  · intro σ c hlen
    rcases hch : (σ c).child_ with _ | ⟨a, _ | ⟨b, rest⟩⟩
    · rw [hch] at hlen
      simp at hlen
    · rw [hch] at hlen
      simp at hlen
    · simp only [removeNode, hch]

/-- C3: inserting a fresh node n above c succeeds; afterwards n is the
sole parent of c, n's only child is c, n's parent set equals c's former
parent set, and each former parent of c holds n (and no longer c) in its
children sequence. -/
theorem c3_insert_as_parent_correctness (σ : Forest) (c n : Nat)
    (h : Consistent σ) (hpn : (σ n).parent_ = []) (hcn : (σ n).child_ = [])
    (hnc : n ≠ c) :
    (insertAsParent σ c n).1 = Status.OK ∧
    ((insertAsParent σ c n).2 c).parent_ = [n] ∧
    ((insertAsParent σ c n).2 n).child_ = [c] ∧
    ((insertAsParent σ c n).2 n).parent_ = (σ c).parent_ ∧
    ∀ p ∈ (σ c).parent_,
      n ∈ ((insertAsParent σ c n).2 p).child_ ∧
      c ∉ ((insertAsParent σ c n).2 p).child_ := by
  refine ⟨?_, ?_, ?_, ?_, ?_⟩
  · simp only [insertAsParent, if_pos (And.intro hpn (And.intro hcn hnc))]
  · rw [insertAsParent_parent_eq σ c n c hpn hcn hnc, if_pos rfl]
  · rw [insertAsParent_child_eq σ c n n hpn hcn hnc, if_pos rfl]
  · rw [insertAsParent_parent_eq σ c n n hpn hcn hnc, if_neg hnc, if_pos rfl]
  · intro p hp
    have hpn2 : p ≠ n := by
      intro hpn2
      rw [hpn2] at hp
      have hcn2 := (h c n).mp hp
      rw [hcn] at hcn2
      exact List.not_mem_nil c hcn2
    have hcp : c ∈ (σ p).child_ := (h c p).mp hp
    constructor
    · rw [insertAsParent_child_eq σ c n p hpn hcn hnc, if_neg hpn2, if_pos hp,
        mem_map_replace]
      exact Or.inl ⟨rfl, hcp⟩
    · rw [insertAsParent_child_eq σ c n p hpn hcn hnc, if_neg hpn2, if_pos hp,
        mem_map_replace]
      rintro (⟨hcn2, _⟩ | ⟨_, hne⟩)
      · exact hnc hcn2.symm
      · exact hne rfl

/-- The chain 0 -> 1 -> 2 built by two addChild steps. -/
def chainPCG : Forest :=
  runMutations emptyForest [Mutation.addChild 0 1, Mutation.addChild 1 2]

/-- The chain arena is consistent, by the per-operation preservation
lemmas. -/
theorem chainPCG_consistent : Consistent chainPCG :=
  applyMutation_consistent _ (Mutation.addChild 1 2)
    (applyMutation_consistent _ (Mutation.addChild 0 1) emptyForest_consistent)

/-- A node 0 with two children 1 and 2. -/
def twoChildren : Forest :=
  runMutations emptyForest [Mutation.addChild 0 1, Mutation.addChild 0 2]

/-- C2 witness: removing node 1 from the chain 0 -> 1 -> 2 rewires 0 to 2;
removing the two-child node 0 fails and returns the arena unchanged. -/
theorem c2_witness :
    (removeNode chainPCG 1).1 = Status.OK ∧
    2 ∈ ((removeNode chainPCG 1).2 0).child_ ∧
    ((removeNode chainPCG 1).2 1).child_ = [] ∧
    removeNode twoChildren 0 = (Status.Error ErrKind.UnsupportedOperation, twoChildren) := by
  have h := c2_remove_correctness
  have h1 := h.1 chainPCG 1 0 2 chainPCG_consistent (by decide) (by decide) (by decide)
  exact ⟨h1.1, h1.2.2.1, h1.2.2.2.2.2.2, h.2 twoChildren 0 (by decide)⟩

/-- C3 witness: inserting fresh node 3 above node 1 of the chain
0 -> 1 -> 2 gives 0 -> 3 -> 1 -> 2. -/
theorem c3_witness :
    (insertAsParent chainPCG 1 3).1 = Status.OK ∧
    ((insertAsParent chainPCG 1 3).2 1).parent_ = [3] ∧
    ((insertAsParent chainPCG 1 3).2 3).child_ = [1] ∧
    ((insertAsParent chainPCG 1 3).2 3).parent_ = (chainPCG 1).parent_ := by
  have h := c3_insert_as_parent_correctness chainPCG 1 3 chainPCG_consistent
    (by decide) (by decide) (by decide)
  exact ⟨h.1, h.2.1, h.2.2.1, h.2.2.2.1⟩

/-- State of a DbConnector as relevant here: the producer and consumer
counts it was created with, its current size and its configured capacity. -/
structure ConnState where
  num_producers : Int
  num_consumers : Int
  size : Int
  capacity : Int
deriving DecidableEq, Repr

/-- One operator with its configured output-connector queue size
(oc_queue_size_, dataset_op.h line 337), its optional output connector
(out_connector_, line 342; none models a null unique_ptr) and its children
(child_, line 334), shaped as a tree for the recursive sizing queries. -/
inductive OpNode where
  | mk (oc_queue_size_ : Int) (out_connector_ : Option ConnState) (child_ : List OpNode) : OpNode

/-- Projection to the configured queue size. -/
def OpNode.oc_queue_size_ : OpNode → Int
  | OpNode.mk q _ _ => q

/-- Projection to the output connector. -/
def OpNode.out_connector_ : OpNode → Option ConnState
  | OpNode.mk _ conn _ => conn

/-- Projection to the children sequence. -/
def OpNode.child_ : OpNode → List OpNode
  | OpNode.mk _ _ cs => cs

/-- Embeds DatasetOp::inlined (dataset_op.h line 208): true exactly when
oc_queue_size_ == 0. -/
def OpNode.inlined (t : OpNode) : Bool := t.oc_queue_size_ == 0

/-- Embeds DatasetOp::ConnectorSize (dataset_op.h lines 236-242): a
non-inlined node answers out_connector_->size() (none models the null
dereference), an inlined node delegates to ChildOpConnectorSize at the
default child index 0 (line 261; none models the out-of-range child_[0]
when there is no child). -/
def OpNode.ConnectorSize : OpNode → Option Int
  | OpNode.mk q conn [] => if q == 0 then none else conn.map ConnState.size
  | OpNode.mk q conn (k :: _) =>
      if q == 0 then OpNode.ConnectorSize k else conn.map ConnState.size

/-- Embeds DatasetOp::ConnectorCapacity (dataset_op.h lines 251-257), the
capacity analogue of ConnectorSize via ChildOpConnectorCapacity (line
265). -/
def OpNode.ConnectorCapacity : OpNode → Option Int
  | OpNode.mk q conn [] => if q == 0 then none else conn.map ConnState.capacity
  | OpNode.mk q conn (k :: _) =>
      if q == 0 then OpNode.ConnectorCapacity k else conn.map ConnState.capacity

/-- Specification-side description for the inline-sizing claim: the
nearest non-inlined node reached from t by descending through first
children; none when an all-inlined chain runs out of children. -/
def OpNode.nearestNonInlined : OpNode → Option OpNode
  | OpNode.mk q conn [] => if q == 0 then none else some (OpNode.mk q conn [])
  | OpNode.mk q conn (k :: rest) =>
      if q == 0 then OpNode.nearestNonInlined k else some (OpNode.mk q conn (k :: rest))

/-- ConnectorSize computes the connector size of the nearest non-inlined
descendant. -/
theorem connectorSize_eq_nearest : ∀ t : OpNode,
    t.ConnectorSize =
      t.nearestNonInlined.bind (fun u => u.out_connector_.map ConnState.size)
  | OpNode.mk q conn [] => by
      by_cases hq : q == 0 <;>
        simp [OpNode.ConnectorSize, OpNode.nearestNonInlined, hq, OpNode.out_connector_]
  | OpNode.mk q conn (k :: rest) => by
      by_cases hq : q == 0
      · have ih := connectorSize_eq_nearest k
        simp [OpNode.ConnectorSize, OpNode.nearestNonInlined, hq, ih]
      · simp [OpNode.ConnectorSize, OpNode.nearestNonInlined, hq, OpNode.out_connector_]

/-- ConnectorCapacity computes the connector capacity of the nearest
non-inlined descendant. -/
theorem connectorCapacity_eq_nearest : ∀ t : OpNode,
    t.ConnectorCapacity =
      t.nearestNonInlined.bind (fun u => u.out_connector_.map ConnState.capacity)
  | OpNode.mk q conn [] => by
      by_cases hq : q == 0 <;>
        simp [OpNode.ConnectorCapacity, OpNode.nearestNonInlined, hq, OpNode.out_connector_]
  | OpNode.mk q conn (k :: rest) => by
      by_cases hq : q == 0
      · have ih := connectorCapacity_eq_nearest k
        simp [OpNode.ConnectorCapacity, OpNode.nearestNonInlined, hq, ih]
      · simp [OpNode.ConnectorCapacity, OpNode.nearestNonInlined, hq, OpNode.out_connector_]

/-- C5: ConnectorSize and ConnectorCapacity of every node equal the size
and capacity of the Connector of the nearest non-inlined node reached by
descending through the child chain: an inlined node delegates both queries
to its child, recursively, through arbitrarily long inline chains. -/
theorem c5_inline_sizing_delegates (t : OpNode) :
    t.ConnectorSize =
      t.nearestNonInlined.bind (fun u => u.out_connector_.map ConnState.size) ∧
    t.ConnectorCapacity =
      t.nearestNonInlined.bind (fun u => u.out_connector_.map ConnState.capacity) :=
  ⟨connectorSize_eq_nearest t, connectorCapacity_eq_nearest t⟩

/-- Modelled from the spec: DatasetOp::CreateConnector (declaration at
dataset_op.h line 90) is implemented in dataset_op.cc, not among the
sources.  Per the header and spec section 4.2 it creates the output
connector for the given producer and consumer counts; the connector's
capacity is the configured oc_queue_size_ and a fresh connector is empty. -/
def createConnector : OpNode → Int → Int → OpNode
  | OpNode.mk q _ cs, np, nc =>
      OpNode.mk q
        (some { num_producers := np, num_consumers := nc, size := 0, capacity := q }) cs

/-- C6: a node reports itself inlined exactly when its configured
output-connector queue size is zero, equivalently exactly when the
connector CreateConnector builds for it has capacity zero. -/
theorem c6_inlined_iff_zero_capacity (t : OpNode) (np nc : Int) :
    (t.inlined = true ↔ t.oc_queue_size_ = 0) ∧
    (t.inlined = true ↔
      (createConnector t np nc).out_connector_.map ConnState.capacity = some 0) := by
  cases t with
  | mk q conn cs =>
      constructor
      · simp [OpNode.inlined, OpNode.oc_queue_size_]
      · simp [OpNode.inlined, OpNode.oc_queue_size_, createConnector, OpNode.out_connector_]

/-- Control tag of a Buffer/Message flowing through a Connector. -/
inductive Msg where
  | data (payload : Nat) : Msg
  | eoe : Msg
  | eof : Msg
deriving DecidableEq, Repr

/-- Handler invocations recorded by the message-handling accessor. -/
inductive HandlerEvent where
  | eoeReceived (worker_id : Nat) : HandlerEvent
  | eofReceived (worker_id : Nat) : HandlerEvent
deriving DecidableEq, Repr

/-- Modelled from the spec: DatasetOp::GetNextInput (declaration at
dataset_op.h line 143) is implemented in dataset_op.cc, not among the
sources.  Per the header comment and spec section 4.3 it fetches the next
message from the designated child's stream; on EndOfEpoch it invokes
EoeReceived and then retries when retryIfEoe is set, otherwise returns the
handled message; on EndOfFile it invokes EofReceived and stops.  The
result is the list of handler invocations, in order, and the message
delivered to the caller (none when the stream is exhausted). -/
def getNextInput (retryIfEoe : Bool) (worker_id : Nat) :
    List Msg → List HandlerEvent × Option Msg
  | [] => ([], none)
  | Msg.data d :: _ => ([], some (Msg.data d))
  | Msg.eoe :: rest =>
      if retryIfEoe then
        let r := getNextInput retryIfEoe worker_id rest
        (HandlerEvent.eoeReceived worker_id :: r.1, r.2)
      else ([HandlerEvent.eoeReceived worker_id], some Msg.eoe)
  | Msg.eof :: _ => ([HandlerEvent.eofReceived worker_id], some Msg.eof)

/-- Boolean test for the EndOfEpoch tag. -/
def isEoe : Msg → Bool
  | Msg.eoe => true
  | _ => false

/-- A delivered EndOfEpoch message always follows an EoeReceived handler
invocation. -/
theorem getNextInput_eoe_handled (flag : Bool) (wid : Nat) (s : List Msg)
    (h : (getNextInput flag wid s).2 = some Msg.eoe) :
    HandlerEvent.eoeReceived wid ∈ (getNextInput flag wid s).1 := by
  induction s with
  | nil => simp [getNextInput] at h
  | cons m rest ih =>
      cases m with
      | data d => simp [getNextInput] at h
      | eoe =>
          cases flag with
          | true => simp [getNextInput]
          | false => simp [getNextInput]
      | eof => simp [getNextInput] at h

/-- A delivered EndOfFile message always follows an EofReceived handler
invocation. -/
theorem getNextInput_eof_handled (flag : Bool) (wid : Nat) (s : List Msg)
    (h : (getNextInput flag wid s).2 = some Msg.eof) :
    HandlerEvent.eofReceived wid ∈ (getNextInput flag wid s).1 := by
  induction s with
  | nil => simp [getNextInput] at h
  | cons m rest ih =>
      cases m with
      | data d => simp [getNextInput] at h
      | eoe =>
          cases flag with
          | true =>
              simp only [getNextInput, ite_true, if_pos rfl] at h ⊢
              exact List.mem_cons_of_mem _ (ih h)
          | false => simp [getNextInput] at h
      | eof => simp [getNextInput]

/-- With the retry flag set, the accessor delivers the first message past
the stream's leading EndOfEpoch run. -/
theorem getNextInput_retry_skips_eoe (wid : Nat) (s : List Msg) :
    (getNextInput true wid s).2 = (s.dropWhile isEoe).head? := by
  induction s with
  | nil => simp [getNextInput]
  | cons m rest ih =>
      cases m with
      | data d => simp [getNextInput, isEoe, List.dropWhile_cons]
      | eoe => simpa [getNextInput, isEoe, List.dropWhile_cons] using ih
      | eof => simp [getNextInput, isEoe, List.dropWhile_cons]

/-- With the retry flag set, the recorded handler invocations are exactly
one EoeReceived per skipped EndOfEpoch message, in stream order, followed
by an EofReceived exactly when the delivered message is EndOfFile. -/
theorem getNextInput_retry_events (wid : Nat) (s : List Msg) :
    (getNextInput true wid s).1 =
      (s.takeWhile isEoe).map (fun _ => HandlerEvent.eoeReceived wid) ++
        (match (s.dropWhile isEoe).head? with
          | some Msg.eof => [HandlerEvent.eofReceived wid]
          | _ => []) := by
  induction s with
  | nil => simp [getNextInput, List.takeWhile, List.dropWhile]
  | cons m rest ih =>
      cases m with
      | data d => simp [getNextInput, isEoe, List.takeWhile_cons, List.dropWhile_cons]
      | eoe => simpa [getNextInput, isEoe, List.takeWhile_cons, List.dropWhile_cons] using ih
      | eof => simp [getNextInput, isEoe, List.takeWhile_cons, List.dropWhile_cons]

/-- C7: the message-handling accessor never delivers an unhandled control
message: a delivered EndOfEpoch or EndOfFile always follows the matching
handler invocation (EoeReceived/EofReceived for the given worker id); with
retryIfEoe set the accessor delivers the first message past the leading
EndOfEpoch run of the designated child's stream, having invoked
EoeReceived once for every skipped EndOfEpoch, in order, and EofReceived
exactly when the delivered message is EndOfFile; without the flag the
accessor stops right after handling one EndOfEpoch. -/
theorem c7_get_next_input_handles_control (flag : Bool) (wid : Nat) (s : List Msg) :
    ((getNextInput flag wid s).2 = some Msg.eoe →
      HandlerEvent.eoeReceived wid ∈ (getNextInput flag wid s).1) ∧
    ((getNextInput flag wid s).2 = some Msg.eof →
      HandlerEvent.eofReceived wid ∈ (getNextInput flag wid s).1) ∧
    (flag = true → (getNextInput flag wid s).2 = (s.dropWhile isEoe).head?) ∧
    (flag = true →
      (getNextInput flag wid s).1 =
        (s.takeWhile isEoe).map (fun _ => HandlerEvent.eoeReceived wid) ++
          (match (s.dropWhile isEoe).head? with
            | some Msg.eof => [HandlerEvent.eofReceived wid]
            | _ => [])) ∧
    (flag = false → ∀ rest : List Msg, s = Msg.eoe :: rest →
      getNextInput flag wid s = ([HandlerEvent.eoeReceived wid], some Msg.eoe)) :=
  ⟨getNextInput_eoe_handled flag wid s, getNextInput_eof_handled flag wid s,
    fun hf => by
      rw [hf]
      exact getNextInput_retry_skips_eoe wid s,
    fun hf => by
      rw [hf]
      exact getNextInput_retry_events wid s,
    fun hf rest hs => by
      rw [hf, hs]
      simp [getNextInput]⟩

/-- C7 witness: a delivered EndOfFile was handled, and a retrying fetch
skips the two leading EndOfEpoch messages having invoked EoeReceived once
for each of them. -/
theorem c7_witness :
    HandlerEvent.eofReceived 1 ∈ (getNextInput false 1 [Msg.eof]).1 ∧
    (getNextInput true 0 [Msg.eoe, Msg.eoe, Msg.data 7]).2 =
      (([Msg.eoe, Msg.eoe, Msg.data 7] : List Msg).dropWhile isEoe).head? ∧
    (getNextInput true 0 [Msg.eoe, Msg.eoe, Msg.data 7]).1 =
      (([Msg.eoe, Msg.eoe, Msg.data 7] : List Msg).takeWhile isEoe).map
          (fun _ => HandlerEvent.eoeReceived 0) ++
        (match (([Msg.eoe, Msg.eoe, Msg.data 7] : List Msg).dropWhile isEoe).head? with
          | some Msg.eof => [HandlerEvent.eofReceived 0]
          | _ => []) :=
  ⟨(c7_get_next_input_handles_control false 1 [Msg.eof]).2.1 (by decide),
    (c7_get_next_input_handles_control true 0 [Msg.eoe, Msg.eoe, Msg.data 7]).2.2.1 rfl,
    (c7_get_next_input_handles_control true 0 [Msg.eoe, Msg.eoe, Msg.data 7]).2.2.2.1 rfl⟩

/-- Embeds DatasetOp::kInvalidOperatorId (dataset_op.h line 46). -/
def kInvalidOperatorId : Int := -1

/-- Modelled from the spec: the DatasetOp constructor body is in
dataset_op.cc, not among the sources.  A node is constructed standalone:
no children, no parents, the kInvalidOperatorId sentinel as id, no tree
back pointer. -/
def mkDatasetOp : DOp :=
  { child_ := [], parent_ := [], operator_id_ := kInvalidOperatorId, tree_ := none }

/-- Modelled from the spec: id assignment is performed exclusively by the
Execution Tree (the friend class declared at dataset_op.h line 43) through
the private set_id (line 351) when nodes are attached; each node of the
attachment list receives the next value of the tree's id counter. -/
def assignIds (σ : Forest) (ns : List Nat) (start : Int) : Forest :=
  fun m =>
    if m ∈ ns then { σ m with operator_id_ := start + (ns.indexOf m : Int) } else σ m

/-- No public mutation operation changes any node's operator id or tree
back pointer. -/
theorem applyMutation_keeps_identity (σ : Forest) (m : Mutation) (k : Nat) :
    ((applyMutation σ m).2 k).operator_id_ = (σ k).operator_id_ ∧
    ((applyMutation σ m).2 k).tree_ = (σ k).tree_ := by
  cases m with
  | addChild a c =>
      by_cases hm : c ∈ (σ a).child_
      · simp [applyMutation, addChild, hm]
      · constructor
        · simp only [applyMutation, addChild, if_neg hm,
            apply_ite DOp.operator_id_, ite_self]
        · simp only [applyMutation, addChild, if_neg hm, apply_ite DOp.tree_, ite_self]
  | removeChild a c =>
      by_cases hm : c ∈ (σ a).child_
      · constructor
        · simp only [applyMutation, removeChild, if_pos hm,
            apply_ite DOp.operator_id_, ite_self]
        · simp only [applyMutation, removeChild, if_pos hm, apply_ite DOp.tree_, ite_self]
      · simp [applyMutation, removeChild, hm]
  | remove c =>
      rcases hch : (σ c).child_ with _ | ⟨g, _ | ⟨g2, gs⟩⟩
      · constructor
        · simp only [applyMutation, removeNode, hch, apply_ite DOp.operator_id_, ite_self]
          by_cases hc : k = c <;> simp [hc]
        · simp only [applyMutation, removeNode, hch, apply_ite DOp.tree_, ite_self]
          by_cases hc : k = c <;> simp [hc]
      · by_cases hgc : g = c
        · simp [applyMutation, removeNode, hch, hgc]
        · constructor
          · simp only [applyMutation, removeNode, hch, if_neg hgc,
              apply_ite DOp.operator_id_, ite_self]
            by_cases hc : k = c <;> simp [hc]
          · simp only [applyMutation, removeNode, hch, if_neg hgc,
              apply_ite DOp.tree_, ite_self]
            by_cases hc : k = c <;> simp [hc]
      · simp [applyMutation, removeNode, hch]
  | insertAsParent c n =>
      by_cases hg : (σ n).parent_ = [] ∧ (σ n).child_ = [] ∧ n ≠ c
      · constructor
        · simp only [applyMutation, insertAsParent, if_pos hg,
            apply_ite DOp.operator_id_, ite_self]
        · simp only [applyMutation, insertAsParent, if_pos hg,
            apply_ite DOp.tree_, ite_self]
      · simp [applyMutation, insertAsParent, hg]

/-- The id an attached node receives from the assignment walk. -/
theorem assignIds_mem_id (σ : Forest) (ns : List Nat) (start : Int) (a : Nat)
    (ha : a ∈ ns) :
    (assignIds σ ns start a).operator_id_ = start + (ns.indexOf a : Int) := by
  simp [assignIds, ha]

/-- Distinct attached nodes receive distinct ids. -/
theorem assignIds_distinct (σ : Forest) (ns : List Nat) (start : Int) (a b : Nat)
    (ha : a ∈ ns) (hb : b ∈ ns) (hab : a ≠ b) :
    (assignIds σ ns start a).operator_id_ ≠ (assignIds σ ns start b).operator_id_ := by
  rw [assignIds_mem_id σ ns start a ha, assignIds_mem_id σ ns start b hb]
  intro he
  have h2 : (ns.indexOf a : Int) = (ns.indexOf b : Int) := by omega
  have h3 : ns.indexOf a = ns.indexOf b := Nat.cast_inj.mp h2
  exact hab ((List.indexOf_inj ha hb).mp h3)

/-- C8: a freshly constructed node carries the kInvalidOperatorId sentinel
(-1); no public mutation operation ever changes a node's id or tree back
pointer (in the source the setters set_id and set_tree are private,
reachable only by the ExecutionTree friend); and distinct nodes attached
by the tree's id-assignment walk receive pairwise distinct ids. -/
theorem c8_identity_discipline :
    mkDatasetOp.operator_id_ = kInvalidOperatorId ∧
    kInvalidOperatorId = -1 ∧
    (∀ (σ : Forest) (m : Mutation) (k : Nat),
      ((applyMutation σ m).2 k).operator_id_ = (σ k).operator_id_ ∧
      ((applyMutation σ m).2 k).tree_ = (σ k).tree_) ∧
    (∀ (σ : Forest) (ns : List Nat) (start : Int) (a b : Nat),
      a ∈ ns → b ∈ ns → a ≠ b →
      (assignIds σ ns start a).operator_id_ ≠ (assignIds σ ns start b).operator_id_) :=
  ⟨rfl, rfl, applyMutation_keeps_identity, assignIds_distinct⟩

/-- C8 witness: the sentinel on a fresh node, id preservation across a
concrete mutation, and distinct ids for two concretely attached nodes. -/
theorem c8_witness :
    mkDatasetOp.operator_id_ = -1 ∧
    ((applyMutation emptyForest (Mutation.addChild 0 1)).2 1).operator_id_ =
      (emptyForest 1).operator_id_ ∧
    (assignIds emptyForest [5, 9] 0 5).operator_id_ ≠
      (assignIds emptyForest [5, 9] 0 9).operator_id_ := by
  have h := c8_identity_discipline
  exact ⟨h.1.trans h.2.1,
    (h.2.2.1 emptyForest (Mutation.addChild 0 1) 1).1,
    h.2.2.2 emptyForest [5, 9] 0 5 9 (by decide) (by decide) (by decide)⟩

/-- Embeds DatasetOp::HasColumnNameMap (dataset_op.h line 228): it returns
column_name_id_map_.empty(). -/
def HasColumnNameMap (column_name_id_map_ : List (String × Int)) : Bool :=
  column_name_id_map_.isEmpty

/-- C9: HasColumnNameMap answers true exactly when the column map holds no
entries, i.e. exactly when the map has not yet been populated: the
opposite of what the header comment documents (whether the operator has
the map set up). -/
theorem c9_has_column_name_map_inverted (m : List (String × Int)) :
    HasColumnNameMap m = true ↔ m = [] := by
  simp [HasColumnNameMap, List.isEmpty_iff]

/-- C9 witness: the empty map answers true, a populated map answers
false. -/
theorem c9_witness :
    HasColumnNameMap [] = true ∧ HasColumnNameMap [("image", 0)] = false := by
  constructor
  · exact (c9_has_column_name_map_inverted []).mpr rfl
  · cases hb : HasColumnNameMap [("image", 0)] with
    | false => rfl
    | true =>
        have hcontra := (c9_has_column_name_map_inverted [("image", 0)]).mp hb
        simp at hcontra

/-- A subtree for ResetSubtree: a node label, whether this node's Reset()
succeeds, and the children in sequence order. -/
inductive RTree where
  | mk (label : Nat) (resetOk : Bool) (child_ : List RTree) : RTree

mutual
/-- Embeds DatasetOp::ResetSubtree (dataset_op.h lines 166-172): Reset()
runs on this node first and RETURN_IF_NOT_OK propagates its failure
immediately; then each child's subtree is reset in sequence order, again
propagating the first failure immediately.  The result lists the labels of
the nodes whose Reset() ran, in invocation order, with the final success
flag. -/
def resetSubtree : RTree → List Nat × Bool
  | RTree.mk l ok cs =>
      if ok then
        let r := resetList cs
        (l :: r.1, r.2)
      else ([l], false)

/-- Sequential traversal of the children list with first-failure cutoff:
the loop of ResetSubtree. -/
def resetList : List RTree → List Nat × Bool
  | [] => ([], true)
  | t :: ts =>
      let r := resetSubtree t
      if r.2 then
        let s := resetList ts
        (r.1 ++ s.1, s.2)
      else (r.1, false)
end

mutual
/-- Labels of a subtree in pre-order. -/
def preorder : RTree → List Nat
  | RTree.mk l _ cs => l :: preorderList cs

/-- Labels of a list of subtrees in pre-order. -/
def preorderList : List RTree → List Nat
  | [] => []
  | t :: ts => preorder t ++ preorderList ts
end

mutual
/-- Whether every Reset in the subtree succeeds. -/
def allOk : RTree → Bool
  | RTree.mk _ ok cs => ok && allOkList cs

/-- Whether every Reset in a list of subtrees succeeds. -/
def allOkList : List RTree → Bool
  | [] => true
  | t :: ts => allOk t && allOkList ts
end

mutual
/-- On an all-successful subtree, ResetSubtree visits exactly the
pre-order listing. -/
theorem resetSubtree_all_ok : ∀ t : RTree, allOk t = true →
    resetSubtree t = (preorder t, true)
  | RTree.mk l ok cs => by
      intro h
      simp only [allOk, Bool.and_eq_true] at h
      obtain ⟨h1, h2⟩ := h
      subst h1
      simp only [resetSubtree, ite_true, if_pos rfl]
      rw [resetList_all_ok cs h2]
      simp [preorder]

/-- On an all-successful children list, the traversal visits exactly the
pre-order listing. -/
theorem resetList_all_ok : ∀ ts : List RTree, allOkList ts = true →
    resetList ts = (preorderList ts, true)
  | [] => by
      intro _
      rfl
  | t :: ts => by
      intro h
      simp only [allOkList, Bool.and_eq_true] at h
      simp only [resetList]
      rw [resetSubtree_all_ok t h.1, resetList_all_ok ts h.2]
      simp [preorderList]
end

/-- The traversal of a children list that succeeds up to a failing subtree
stops right there: later children are never visited. -/
theorem resetList_append_fail (ts1 : List RTree) (tf : RTree) (ts2 : List RTree)
    (h1 : (resetList ts1).2 = true) (h2 : (resetSubtree tf).2 = false) :
    resetList (ts1 ++ tf :: ts2) =
      ((resetList ts1).1 ++ (resetSubtree tf).1, false) := by
  induction ts1 with
  | nil =>
      simp only [List.nil_append, resetList]
      rw [if_neg (by simp [h2])]
  | cons t ts ih =>
      simp only [List.cons_append, List.append_eq, resetList] at h1 ⊢
      by_cases hb : (resetSubtree t).2 = true
      · simp only [if_pos hb] at h1 ⊢
        have h1b : (resetList ts).2 = true := h1
        rw [ih h1b]
        simp [List.append_assoc]
      · rw [if_neg hb] at h1
        simp at h1

/-- C10: ResetSubtree resets the node itself before recursing, visits the
children in sequence order, and returns the first failure immediately: on
full success the reset order is exactly the pre-order listing, and when
one child subtree fails, the children after it are not visited at all. -/
theorem c10_reset_subtree_preorder_short_circuit :
    (∀ t : RTree, allOk t = true → resetSubtree t = (preorder t, true)) ∧
    (∀ (l : Nat) (ts1 : List RTree) (tf : RTree) (ts2 : List RTree),
      (resetList ts1).2 = true → (resetSubtree tf).2 = false →
      resetSubtree (RTree.mk l true (ts1 ++ tf :: ts2)) =
        (l :: ((resetList ts1).1 ++ (resetSubtree tf).1), false)) := by
  constructor
  · exact resetSubtree_all_ok
  · intro l ts1 tf ts2 h1 h2
    simp only [resetSubtree, ite_true, if_pos rfl]
    rw [resetList_append_fail ts1 tf ts2 h1 h2]

/-- C10 witness: in a tree whose second child fails its Reset, the visit
order is node, first child, failing child, and the third child is never
reset; a fully successful tree is visited in pre-order. -/
theorem c10_witness :
    resetSubtree (RTree.mk 0 true
      [RTree.mk 1 true [], RTree.mk 2 false [], RTree.mk 3 true []]) =
      ([0, 1, 2], false) ∧
    resetSubtree (RTree.mk 5 true [RTree.mk 6 true []]) = ([5, 6], true) := by
  have h := c10_reset_subtree_preorder_short_circuit
  constructor
  · have h2 := h.2 0 [RTree.mk 1 true []] (RTree.mk 2 false []) [RTree.mk 3 true []]
      rfl rfl
    exact h2.trans rfl
  · exact (h.1 (RTree.mk 5 true [RTree.mk 6 true []]) rfl).trans rfl

end MindDataset
